import Mathlib

set_option maxRecDepth 8192

/-!
Verification development for the BL_FastStart filename-prediction engine
(`src/extension_logic.py`).  The Python code is shallowly embedded: each
pure fragment of the handler becomes an executable Lean definition on
`String` / `List Char`, filesystem state becomes an explicit record of
existing paths, and the opaque external qtfaststart collaborator becomes
an outcome parameter.  Theorems below settle the frozen claims about the
naming rule engine, the frame formatter, the suffix sanitizer, the file
locator and the failure-handling step.
-/

namespace FastStart

/-- The two FFMPEG containers the addon handles
(`scene.render.ffmpeg.format in {MPEG4, QUICKTIME}`). -/
inductive Container
  | MPEG4
  | QUICKTIME
deriving DecidableEq

/-- `extension_logic.py:393`: `".mp4" if container_type == 'MPEG4' else ".mov"`
(the correct, lowercased container extension). -/
def containerExt : Container → String
  | .MPEG4 => ".mp4"
  | .QUICKTIME => ".mov"

/-- Python `str.lower()` restricted to its ASCII action (`Char.toLower`
maps `A`–`Z` to `a`–`z` and fixes everything else), which is all that the
extension comparison at `extension_logic.py:396` exercises. -/
def pyLower (s : String) : String :=
  String.mk (s.data.map Char.toLower)

/-- `c` is not the extension separator dot. -/
def notDotB (c : Char) : Bool := c != '.'

/-- Python `os.path.splitext` on a basename (the code only applies it to
`os.path.basename` results, so no path separators occur): the extension
starts at the last `.`, but only if some character before that dot is not
a dot — leading dots of the component are part of the root, so
`splitext(".mp4") = (".mp4", "")`. -/
def splitextData (l : List Char) : List Char × List Char :=
  let rev := l.reverse
  let afterDot := rev.takeWhile notDotB
  let rest := rev.dropWhile notDotB
  match rest with
  | [] => (l, [])
  | _ :: stemRev =>
    if stemRev.any notDotB then
      (stemRev.reverse, '.' :: afterDot.reverse)
    else
      (l, [])

/-- `os.path.splitext` on `String`s, as used at `extension_logic.py:381`. -/
def strSplitext (s : String) : String × String :=
  (String.mk (splitextData s.data).1, String.mk (splitextData s.data).2)

/-- The rightmost maximal run of `#` placeholders, as computed by
`for match in re.finditer(r'(#+)', s): last_hash_match = match`
(`extension_logic.py:411,425,445`): returns
`(prefix, run length, remainder)` for the last maximal `#` run,
or `none` when the string has no `#`. -/
def lastHashRun : List Char → Option (List Char × Nat × List Char)
  | [] => none
  | c :: rest =>
    match lastHashRun rest with
    | some (pre, n, rem) =>
      if pre = [] then
        if c = '#' then some ([], n + 1, rem) else some ([c], n, rem)
      else some (c :: pre, n, rem)
    | none => if c = '#' then some ([], 1, rest) else none

/-- Python `f"{n:0{w}d}"` for `n ≥ 0`: the decimal digits of `n`,
left-padded with `0` up to a minimum width `w` (never truncated). -/
def padNum (width n : Nat) : String :=
  String.mk (List.replicate (width - (Nat.toDigits 10 n).length) '0'
    ++ Nat.toDigits 10 n)

/-- `_construct_video_filename` (`extension_logic.py:131-153`):
base, then — only when the padding is positive — the
`"{start}-{end}"` token with both ends independently zero-padded,
then the literal middle text, then the extension. -/
def constructVideoFilename (baseNamePart suffixAfterFrameNumbers : String)
    (startFrame endFrame : Nat) (framePaddingDigits : Nat)
    (outputExtensionWithDot : String) : String :=
  baseNamePart
    ++ (if 0 < framePaddingDigits then
          padNum framePaddingDigits startFrame ++ "-"
            ++ padNum framePaddingDigits endFrame
        else "")
    ++ suffixAfterFrameNumbers ++ outputExtensionWithDot

/-- The engine's sole output (`base_for_construction`,
`frame_padding`, `suffix_after_frames`, `final_output_extension` at
`extension_logic.py:383-386`). -/
structure NamingPlan where
  base : String
  padding : Nat
  middle : String
  ext : String
deriving DecidableEq, Repr

/-- Naming rule selection when the "File Extension" checkbox is ON
(`extension_logic.py:391-433`): Scenario A (correct user extension:
everything before it is literal, no frame token), Scenario B (no user
extension: scan the whole basename for the rightmost `#` run, default
width 4 when none), Scenario C (wrong user extension: scan only the name
part before the extension dot; the wrong extension joins the middle
text; default width 4 and verbatim full basename when no run). -/
def planEnforce (basename : String) (ct : Container) : NamingPlan :=
  if (strSplitext basename).2 ≠ ""
      ∧ pyLower (strSplitext basename).2 = containerExt ct then
    ⟨(strSplitext basename).1, 0, "", containerExt ct⟩
  else if (strSplitext basename).2 = "" then
    match lastHashRun basename.data with
    | some (pre, n, rem) => ⟨String.mk pre, n, String.mk rem, containerExt ct⟩
    | none => ⟨basename, 4, "", containerExt ct⟩
  else
    match lastHashRun (strSplitext basename).1.data with
    | some (pre, n, rem) =>
      ⟨String.mk pre, n, String.mk rem ++ (strSplitext basename).2, containerExt ct⟩
    | none => ⟨basename, 4, "", containerExt ct⟩

/-- Naming rule selection when the "File Extension" checkbox is OFF
(`extension_logic.py:434-457`): the user's typed extension is kept
literally; the rightmost `#` run of the stem (the part before the typed
extension) becomes the frame token; with no run the name is emitted
verbatim with no token. -/
def planFree (basename : String) : NamingPlan :=
  match lastHashRun
      (if (strSplitext basename).2 ≠ "" then (strSplitext basename).1
       else basename).data with
  | some (pre, n, rem) => ⟨String.mk pre, n, String.mk rem, (strSplitext basename).2⟩
  | none =>
    ⟨(if (strSplitext basename).2 ≠ "" then (strSplitext basename).1 else basename),
      0, "", (strSplitext basename).2⟩

/-- `extension_logic.py:462-469`: render a naming plan for a frame range. -/
def renderPlan (p : NamingPlan) (startFrame endFrame : Nat) : String :=
  constructVideoFilename p.base p.middle startFrame endFrame p.padding p.ext

/-! ### Suffix sanitizer (`extension_logic.py:326-351`) -/

/-- The code points Python `str.strip()` removes (the full set for which
`chr(i).strip() == ""`). -/
def pyWs (c : Char) : Bool :=
  [0x9, 0xA, 0xB, 0xC, 0xD, 0x1C, 0x1D, 0x1E, 0x1F, 0x20, 0x85, 0xA0,
   0x1680, 0x2000, 0x2001, 0x2002, 0x2003, 0x2004, 0x2005, 0x2006, 0x2007,
   0x2008, 0x2009, 0x200A, 0x2028, 0x2029, 0x202F, 0x205F, 0x3000].contains c.toNat

/-- Python `str.strip()`: drop whitespace from both ends. -/
def stripChars (l : List Char) : List Char :=
  ((l.dropWhile pyWs).reverse.dropWhile pyWs).reverse

/-- Python `s.replace("..", "")` (`extension_logic.py:341`): delete
non-overlapping occurrences of `..`, scanning left to right. -/
def removeDotDot : List Char → List Char
  | [] => []
  | [c] => [c]
  | c :: d :: r =>
    if c = '.' ∧ d = '.' then removeDotDot r
    else c :: removeDotDot (d :: r)

/-- The filesystem-reserved characters of the pattern
`r'[<>:"/\\|?*]'` at `extension_logic.py:342`. -/
def reservedB (c : Char) : Bool :=
  ['<', '>', ':', '"', '/', '\\', '|', '?', '*'].contains c

/-- `re.sub(reserved_chars_pattern, '_', s)` (`extension_logic.py:343`). -/
def replaceReserved (l : List Char) : List Char :=
  l.map (fun c => if reservedB c then '_' else c)

/-- ASCII control characters of the pattern `r'[\x00-\x1F]'`
(`extension_logic.py:344`). -/
def isCtrl (c : Char) : Bool :=
  c.toNat ≤ 0x1F

/-- `re.sub(r'[\x00-\x1F]', '', s)` (`extension_logic.py:344`). -/
def stripCtrl (l : List Char) : List Char :=
  l.filter (fun c => !isCtrl c)

/-- The fixed default suffix (`extension_logic.py:326`). -/
def defaultSuffix : List Char := "-faststart".data

/-- The sanitization block `extension_logic.py:341-348` applied to an
already-defaulted suffix: remove `..`, replace reserved characters with
`_`, strip control characters, and fall back to the default when the
result is empty or whitespace-only (`if not custom_suffix.strip()`). -/
def sanitizeCore (s : List Char) : List Char :=
  let t := stripCtrl (replaceReserved (removeDotDot s))
  if t.all pyWs then defaultSuffix else t

/-- The full suffix pipeline of `extension_logic.py:329-348`: the raw
preference string is stripped (`user_suffix_from_prefs.strip()`), an
empty result is replaced by the default (`extension_logic.py:331-333`),
and the sanitization block then runs on the outcome. -/
def sanitize (raw : List Char) : List Char :=
  let s := stripChars raw
  sanitizeCore (if s = [] then defaultSuffix else s)

/-- No two adjacent dots anywhere in the list. -/
def noDD : List Char → Bool
  | [] => true
  | [_] => true
  | c :: d :: r => !(c = '.' && d = '.') && noDD (d :: r)

/-! ### File locator (`extension_logic.py:471-513`) -/

/-- An abstract snapshot of the paths that exist on disk:
`files` answers `os.path.exists p and not os.path.isdir p`,
`dirs` answers `os.path.isdir p`. -/
structure FS where
  files : List String
  dirs : List String

/-- `os.path.exists p and not os.path.isdir p` — the check the handler
applies to the predicted path and to every fallback candidate
(`extension_logic.py:474,495,503`). -/
def FS.isFilePath (fs : FS) (p : String) : Bool :=
  fs.files.contains p && !fs.dirs.contains p

/-- `os.path.join` for the directory/basename pairs the handler builds
(the directory is an absolute path without a trailing separator, the
name a plain basename). -/
def pathJoin (d name : String) : String :=
  if d = "" then name else d ++ "/" ++ name

/-- The source-file search of `extension_logic.py:474-513`: first the
predicted path exactly (must exist and not be a directory); on a miss,
only when the raw setting was a directory AND the "File Extension"
checkbox is on, the blend-file-name candidate
(`_construct_video_filename(blend_name_base, "", start, end, 4, ext)`,
tried only when the .blend is saved, `extension_logic.py:487-497`) and
then the numeric-token-only candidate
(`_construct_video_filename("", "", start, end, 4, ext)`,
`extension_logic.py:499-505`); `none` when everything misses. -/
def locateRenderedFile (fs : FS) (outDir : String) (predictedName : String)
    (settingIsDir useExt : Bool) (blendStem : String)
    (startFrame endFrame : Nat) (finalExt : String) : Option String :=
  if fs.isFilePath (pathJoin outDir predictedName) then
    some (pathJoin outDir predictedName)
  else if settingIsDir then
    if useExt then
      if blendStem ≠ "" ∧ fs.isFilePath (pathJoin outDir
          (constructVideoFilename blendStem "" startFrame endFrame 4 finalExt)) then
        some (pathJoin outDir
          (constructVideoFilename blendStem "" startFrame endFrame 4 finalExt))
      else if fs.isFilePath (pathJoin outDir
          (constructVideoFilename "" "" startFrame endFrame 4 finalExt)) then
        some (pathJoin outDir
          (constructVideoFilename "" "" startFrame endFrame 4 finalExt))
      else none
    else none
  else none

/-- The companion path derived from a located source file
(`extension_logic.py:522-526`): directory kept, suffix inserted between
the stem and the extension of the located basename. -/
def companionName (sourceBasename suffix : String) : String :=
  (strSplitext sourceBasename).1 ++ suffix ++ (strSplitext sourceBasename).2

/-- What the post-render step produces from the locator's answer: `none`
(skip, no companion file) when the locator missed
(`extension_logic.py:507-513`), otherwise the located source paired with
the companion path it will hand to the external collaborator. -/
def companionOutcome (located : Option String) (outDir suffix : String) :
    Option (String × String) :=
  match located with
  | none => none
  | some src => some (src, pathJoin outDir (companionName src suffix))

/-- The locator exactly as claim C2 words it, for comparison with the
code's `locateRenderedFile`: on a miss, when the setting was a
directory, first the numeric-token-only candidate, then the
project-default-name candidate. -/
def locateClaimC2 (fs : FS) (outDir : String) (predictedName : String)
    (settingIsDir : Bool) (blendStem : String)
    (startFrame endFrame : Nat) (finalExt : String) : Option String :=
  let predicted := pathJoin outDir predictedName
  if fs.isFilePath predicted then some predicted
  else if settingIsDir then
    let altFrames :=
      pathJoin outDir (constructVideoFilename "" "" startFrame endFrame 4 finalExt)
    if fs.isFilePath altFrames then some altFrames
    else
      let altBlend :=
        pathJoin outDir (constructVideoFilename blendStem "" startFrame endFrame 4 finalExt)
      if fs.isFilePath altBlend then some altBlend else none
  else none

/-- The free-extension naming rule exactly as claim C6 words it, for
comparison with the code's `planFree`: the basename is split on its
last dot unconditionally (so a leading dot can start the extension),
the literal extension kept verbatim. -/
def splitLastDotClaimC6 (s : String) : String × String :=
  let rev := s.data.reverse
  let afterDot := rev.takeWhile notDotB
  let rest := rev.dropWhile notDotB
  match rest with
  | [] => (s, "")
  | _ :: stemRev => (String.mk stemRev.reverse, String.mk ('.' :: afterDot.reverse))

/-- The naming plan claim C6 describes, built on `splitLastDotClaimC6`. -/
def planFreeClaimC6 (basename : String) : NamingPlan :=
  let stem := (splitLastDotClaimC6 basename).1
  let ue := (splitLastDotClaimC6 basename).2
  match lastHashRun stem.data with
  | some (pre, n, rem) => ⟨String.mk pre, n, String.mk rem, ue⟩
  | none => ⟨stem, 0, "", ue⟩

/-! ### External-collaborator failure handling (`extension_logic.py:157-237,521-543`) -/

/-- The failures the wrapper catches (`extension_logic.py:228-232`):
the three exceptions the qtfaststart library defines
(`src/qtfaststart_lib/__init__.py`), `FileNotFoundError`, and any other
exception. -/
inductive QtError
  | setupError
  | malformedFile
  | unsupportedFormat
  | fileNotFound
  | otherError
deriving DecidableEq

/-- Whether the external `qtfaststart.processor.process` call returned
or raised. -/
inductive QtOutcome
  | completed
  | raised (e : QtError)
deriving DecidableEq

/-- The two files the post-render step touches: the located source and
the companion output path; `some n` is a file of `n` bytes, `none` is
an absent file. -/
structure MediaState where
  sourceSize : Option Nat
  outputSize : Option Nat
deriving DecidableEq, Repr

/-- Modelled from the spec: the body of `qtfaststart.processor.process`
is not under `src/` (only re-exports in `src/qtfaststart_lib/__init__.py`
and `src/libs/qtfaststart/__init__.py` are), and §6 specifies it as an
opaque call `process(input_path, output_path)` that writes only the
output path — the source file is never written.  Its effect is therefore
the output file reaching the (arbitrary) state `outAfter`. -/
def externalCallEffect (st : MediaState) (outAfter : Option Nat) : MediaState :=
  { st with outputSize := outAfter }

/-- The success verdict of `run_qtfaststart_processing`
(`extension_logic.py:157-237`): `false` when the input file is absent
(`:161-162`), when the call raised any exception (`:228-232`, all
caught), or when the output file is absent or empty after the call
(`:223-226`); `true` only when the call returned and the output exists
with positive size. -/
def runQtSuccess (st : MediaState) (outcome : QtOutcome) (outAfter : Option Nat) : Bool :=
  match st.sourceSize with
  | none => false
  | some _ =>
    match outcome with
    | .completed =>
      match outAfter with
      | some n => decide (0 < n)
      | none => false
    | .raised _ => false

/-- The post-render processing step around the external call
(`extension_logic.py:529-540`): run the collaborator; on failure, remove
the output artifact only when it exists and has size zero
(`os.path.getsize(...) == 0`, `:535-537`); the source file is never
written or removed.  Returns the final file state and the success flag
(the step itself never raises: every collaborator failure is caught). -/
def postProcessStep (st : MediaState) (outcome : QtOutcome) (outAfter : Option Nat) :
    MediaState × Bool :=
  if runQtSuccess st outcome outAfter then (externalCallEffect st outAfter, true)
  else
    match (externalCallEffect st outAfter).outputSize with
    | some 0 => ({ externalCallEffect st outAfter with outputSize := none }, false)
    | _ => (externalCallEffect st outAfter, false)


/-! ### Supporting lemmas -/

theorem lastHashRun_eq_none_iff (l : List Char) :
    lastHashRun l = none ↔ ∀ c ∈ l, c ≠ '#' := by
  induction l with
  | nil => simp [lastHashRun]
  | cons c r ih =>
    cases h : lastHashRun r with
    | none =>
      simp only [lastHashRun, h]
      constructor
      · intro hif
        by_cases hc : c = '#'
        · simp [hc] at hif
        · intro x hx
          rcases List.mem_cons.mp hx with rfl | hxr
          · exact hc
          · exact (ih.mp h) x hxr
      · intro hall
        have hc : c ≠ '#' := hall c (List.mem_cons_self c r)
        simp [hc]
    | some v =>
      obtain ⟨pre, n, rem⟩ := v
      constructor
      · intro hnone
        exfalso
        simp only [lastHashRun, h] at hnone
        by_cases hp : pre = [] <;> by_cases hc : c = '#' <;>
          simp [hp, hc] at hnone
      · intro hall
        exfalso
        have h0 : lastHashRun r = none :=
          ih.mpr (fun x hx => hall x (List.mem_cons_of_mem c hx))
        rw [h] at h0
        exact Option.noConfusion h0

theorem dropWhile_cons_head_false {p : Char → Bool} {l : List Char} {hd : Char}
    {t : List Char} (h : l.dropWhile p = hd :: t) : p hd = false := by
  induction l with
  | nil => simp [List.dropWhile] at h
  | cons a r ih =>
    rw [List.dropWhile_cons] at h
    by_cases hp : p a
    · rw [if_pos hp] at h
      exact ih h
    · rw [if_neg hp] at h
      cases h
      simpa using hp

theorem splitextData_append (l : List Char) :
    (splitextData l).1 ++ (splitextData l).2 = l := by
  simp only [splitextData]
  cases hrest : l.reverse.dropWhile notDotB with
  | nil => simp
  | cons hd stemRev =>
    dsimp only
    by_cases hany : stemRev.any notDotB
    · rw [if_pos hany]
      have hhd : hd = '.' := by
        have h1 := dropWhile_cons_head_false hrest
        simpa [notDotB] using h1
      subst hhd
      have hsplit : l.reverse.takeWhile notDotB ++ ('.' :: stemRev)
          = l.reverse := by
        rw [← hrest]
        exact List.takeWhile_append_dropWhile _ _
      have hl : l = stemRev.reverse
          ++ '.' :: (l.reverse.takeWhile notDotB).reverse := by
        conv_lhs => rw [← l.reverse_reverse, ← hsplit]
        simp
      exact hl.symm
    · rw [if_neg hany]
      simp

theorem splitextData_fst_mem {l : List Char} {c : Char}
    (h : c ∈ (splitextData l).1) : c ∈ l := by
  rw [← splitextData_append l]
  exact List.mem_append_left _ h

theorem strSplitext_append (s : String) :
    (strSplitext s).1 ++ (strSplitext s).2 = s := by
  apply String.ext
  rw [String.data_append]
  exact splitextData_append s.data

theorem strSplitext_fst_of_snd_empty {s : String}
    (h : (strSplitext s).2 = "") : (strSplitext s).1 = s := by
  have h1 := strSplitext_append s
  rw [h] at h1
  simpa using h1

theorem noDD_tail {c : Char} {l : List Char} (h : noDD (c :: l) = true) :
    noDD l = true := by
  cases l with
  | nil => rfl
  | cons d r =>
    simp only [noDD, Bool.and_eq_true] at h
    exact h.2

theorem noDD_cons_of_ne {c : Char} (hc : c ≠ '.') (l : List Char) :
    noDD (c :: l) = noDD l := by
  cases l with
  | nil => simp [noDD]
  | cons d r => simp [noDD, hc]

theorem removeDotDot_cons_ne {d : Char} (hd : d ≠ '.') (r : List Char) :
    removeDotDot (d :: r) = d :: removeDotDot r := by
  cases r with
  | nil => simp [removeDotDot]
  | cons e r2 => simp [removeDotDot, hd]

theorem noDD_removeDotDot (l : List Char) : noDD (removeDotDot l) = true := by
  induction l using removeDotDot.induct with
  | case1 => rfl
  | case2 c => rfl
  | case3 c d r hcd ih =>
    rw [removeDotDot, if_pos hcd]
    exact ih
  | case4 c d r hcd ih =>
    rw [removeDotDot, if_neg hcd]
    by_cases hc : c = '.'
    · subst hc
      have hd : d ≠ '.' := fun hd => hcd ⟨rfl, hd⟩
      rw [removeDotDot_cons_ne hd]
      have h2 : noDD (d :: removeDotDot r) = true := by
        rw [← removeDotDot_cons_ne hd]
        exact ih
      simp only [noDD, Bool.and_eq_true]
      exact ⟨by simp [hd], h2⟩
    · rw [noDD_cons_of_ne hc]
      exact ih

theorem removeDotDot_eq_self {l : List Char} (h : noDD l = true) :
    removeDotDot l = l := by
  induction l using removeDotDot.induct with
  | case1 => rfl
  | case2 c => rfl
  | case3 c d r hcd ih =>
    exfalso
    obtain ⟨hc, hd⟩ := hcd
    subst hc
    subst hd
    simp [noDD] at h
  | case4 c d r hcd ih =>
    rw [removeDotDot, if_neg hcd, ih (noDD_tail h)]

theorem removeDotDot_sublist (l : List Char) : List.Sublist (removeDotDot l) l := by
  induction l using removeDotDot.induct with
  | case1 => exact List.Sublist.refl _
  | case2 c => exact List.Sublist.refl _
  | case3 c d r hcd ih =>
    rw [removeDotDot, if_pos hcd]
    exact ih.trans ((List.sublist_cons_self _ _).trans (List.sublist_cons_self _ _))
  | case4 c d r hcd ih =>
    rw [removeDotDot, if_neg hcd]
    exact ih.cons₂ c

theorem noDD_append_right {a b : List Char} (h : noDD (a ++ b) = true) :
    noDD b = true := by
  induction a with
  | nil => exact h
  | cons c a ih => exact ih (noDD_tail h)

theorem noDD_append_left {a b : List Char} (h : noDD (a ++ b) = true) :
    noDD a = true := by
  induction a with
  | nil => rfl
  | cons c a ih =>
    cases a with
    | nil => rfl
    | cons d a2 =>
      simp only [List.cons_append, noDD, Bool.and_eq_true] at h ⊢
      exact ⟨h.1, ih h.2⟩

theorem stripChars_eq_parts (l : List Char) :
    ∃ a b, l = a ++ stripChars l ++ b := by
  refine ⟨l.takeWhile pyWs, ((l.dropWhile pyWs).reverse.takeWhile pyWs).reverse, ?_⟩
  have h1 : l.takeWhile pyWs ++ l.dropWhile pyWs = l :=
    List.takeWhile_append_dropWhile _ _
  have h2 : (l.dropWhile pyWs).reverse.takeWhile pyWs
      ++ (l.dropWhile pyWs).reverse.dropWhile pyWs = (l.dropWhile pyWs).reverse :=
    List.takeWhile_append_dropWhile _ _
  have h3 : l.dropWhile pyWs
      = stripChars l ++ ((l.dropWhile pyWs).reverse.takeWhile pyWs).reverse := by
    unfold stripChars
    have h4 := congrArg List.reverse h2
    rw [List.reverse_append, List.reverse_reverse] at h4
    exact h4.symm
  conv_lhs => rw [← h1, h3]
  rw [List.append_assoc]

theorem noDD_stripChars {l : List Char} (h : noDD l = true) :
    noDD (stripChars l) = true := by
  obtain ⟨a, b, hab⟩ := stripChars_eq_parts l
  rw [hab, List.append_assoc] at h
  exact noDD_append_left (noDD_append_right h)

theorem mem_stripChars {l : List Char} {c : Char} (h : c ∈ stripChars l) :
    c ∈ l := by
  obtain ⟨a, b, hab⟩ := stripChars_eq_parts l
  rw [hab]
  exact List.mem_append_left _ (List.mem_append_right _ h)

theorem dropWhile_head?_false {p : Char → Bool} {l : List Char} {c : Char}
    (h : (l.dropWhile p).head? = some c) : p c = false := by
  cases hd : l.dropWhile p with
  | nil => rw [hd] at h; exact Option.noConfusion h
  | cons a r =>
    rw [hd] at h
    have ha : a = c := by simpa using h
    subst ha
    exact dropWhile_cons_head_false hd

theorem getLast?_dropWhile {p : Char → Bool} {l : List Char}
    (h : l.dropWhile p ≠ []) : (l.dropWhile p).getLast? = l.getLast? := by
  induction l with
  | nil => simp [List.dropWhile] at h
  | cons a r ih =>
    rw [List.dropWhile_cons]
    by_cases hp : p a
    · rw [if_pos hp]
      rw [List.dropWhile_cons, if_pos hp] at h
      cases r with
      | nil => simp [List.dropWhile] at h
      | cons b rb => rw [ih h, List.getLast?_cons_cons]
    · rw [if_neg hp]

theorem stripChars_head?_false {l : List Char} {c : Char}
    (h : (stripChars l).head? = some c) : pyWs c = false := by
  unfold stripChars at h
  rw [List.head?_reverse] at h
  have hB : (l.dropWhile pyWs).reverse.dropWhile pyWs ≠ [] := by
    intro h0
    rw [h0] at h
    exact Option.noConfusion h
  rw [getLast?_dropWhile hB, List.getLast?_reverse] at h
  exact dropWhile_head?_false h

theorem stripChars_getLast?_false {l : List Char} {c : Char}
    (h : (stripChars l).getLast? = some c) : pyWs c = false := by
  unfold stripChars at h
  rw [List.getLast?_reverse] at h
  exact dropWhile_head?_false h

theorem stripChars_eq_self {t : List Char}
    (hh : ∀ c, t.head? = some c → pyWs c = false)
    (hl : ∀ c, t.getLast? = some c → pyWs c = false) :
    stripChars t = t := by
  unfold stripChars
  have h1 : t.dropWhile pyWs = t := by
    cases t with
    | nil => rfl
    | cons a r =>
      rw [List.dropWhile_cons, if_neg (by simp [hh a rfl])]
  rw [h1]
  have h2 : t.reverse.dropWhile pyWs = t.reverse := by
    cases hrev : t.reverse with
    | nil => rfl
    | cons a r =>
      rw [List.dropWhile_cons]
      have ha : pyWs a = false := by
        apply hl
        rw [← List.head?_reverse, hrev]
        rfl
      rw [if_neg (by simp [ha]), ← hrev]
  rw [h2, List.reverse_reverse]

theorem reservedB_repl (c : Char) :
    reservedB (if reservedB c then '_' else c) = false := by
  by_cases h : reservedB c
  · rw [if_pos h]
    decide
  · rw [if_neg h]
    simpa using h

theorem isCtrl_repl {c : Char} (h : isCtrl c = false) :
    isCtrl (if reservedB c then '_' else c) = false := by
  by_cases hr : reservedB c
  · rw [if_pos hr]
    decide
  · rw [if_neg hr]
    exact h

theorem pyWs_repl {c : Char} (h : pyWs c = false) :
    pyWs (if reservedB c then '_' else c) = false := by
  by_cases hr : reservedB c
  · rw [if_pos hr]
    decide
  · rw [if_neg hr]
    exact h

theorem repl_eq_dot_iff (c : Char) :
    ((if reservedB c then '_' else c) = '.') ↔ c = '.' := by
  by_cases h : reservedB c
  · rw [if_pos h]
    constructor
    · intro h1
      exact absurd h1 (by decide)
    · intro h1
      subst h1
      exact absurd h (by decide)
  · rw [if_neg h]

theorem noDD_cons_cons (c d : Char) (r : List Char) :
    noDD (c :: d :: r) = true ↔ ¬(c = '.' ∧ d = '.') ∧ noDD (d :: r) = true := by
  simp [noDD]
  intro
  tauto

theorem noDD_replaceReserved {l : List Char} (h : noDD l = true) :
    noDD (replaceReserved l) = true := by
  induction l using noDD.induct with
  | case1 => rfl
  | case2 c => rfl
  | case3 c d r ih =>
    rw [noDD_cons_cons] at h
    have h2 : noDD (replaceReserved (d :: r)) = true := ih h.2
    show noDD ((if reservedB c then '_' else c)
      :: (if reservedB d then '_' else d) :: replaceReserved r) = true
    rw [noDD_cons_cons]
    constructor
    · intro hcd
      exact h.1 ⟨(repl_eq_dot_iff c).mp hcd.1, (repl_eq_dot_iff d).mp hcd.2⟩
    · exact h2

theorem replaceReserved_eq_self {l : List Char}
    (h : ∀ c ∈ l, reservedB c = false) : replaceReserved l = l := by
  unfold replaceReserved
  induction l with
  | nil => rfl
  | cons a r ih =>
    rw [List.map_cons, if_neg (by simp [h a (List.mem_cons_self a r)]),
      ih (fun c hc => h c (List.mem_cons_of_mem a hc))]

theorem stripCtrl_eq_self {l : List Char} (h : ∀ c ∈ l, isCtrl c = false) :
    stripCtrl l = l := by
  unfold stripCtrl
  rw [List.filter_eq_self]
  intro a ha
  simp [h a ha]

theorem isCtrl_of_mem_stripCtrl {l : List Char} {c : Char}
    (h : c ∈ stripCtrl l) : isCtrl c = false := by
  have h1 := List.of_mem_filter h
  simpa using h1

theorem reservedB_of_mem_replaceReserved {l : List Char} {c : Char}
    (h : c ∈ replaceReserved l) : reservedB c = false := by
  unfold replaceReserved at h
  obtain ⟨a, _, rfl⟩ := List.mem_map.mp h
  exact reservedB_repl a

theorem isCtrl_of_mem_replaceReserved {l : List Char} {c : Char}
    (hl : ∀ x ∈ l, isCtrl x = false) (h : c ∈ replaceReserved l) :
    isCtrl c = false := by
  unfold replaceReserved at h
  obtain ⟨a, ha, rfl⟩ := List.mem_map.mp h
  exact isCtrl_repl (hl a ha)

theorem sanitizeCore_ne_nil (s : List Char) : sanitizeCore s ≠ [] := by
  unfold sanitizeCore
  by_cases h : (stripCtrl (replaceReserved (removeDotDot s))).all pyWs
  · rw [if_pos h]
    decide
  · rw [if_neg h]
    intro h0
    rw [h0] at h
    exact h rfl

theorem sanitize_ne_nil (raw : List Char) : sanitize raw ≠ [] := by
  unfold sanitize
  exact sanitizeCore_ne_nil _

theorem sanitizeCore_mem {s : List Char} {c : Char} (h : c ∈ sanitizeCore s) :
    reservedB c = false ∧ isCtrl c = false := by
  unfold sanitizeCore at h
  by_cases hall : (stripCtrl (replaceReserved (removeDotDot s))).all pyWs
  · rw [if_pos hall] at h
    exact (by decide :
      ∀ x ∈ defaultSuffix, reservedB x = false ∧ isCtrl x = false) c h
  · rw [if_neg hall] at h
    exact ⟨reservedB_of_mem_replaceReserved (List.mem_of_mem_filter h),
      isCtrl_of_mem_stripCtrl h⟩

theorem sanitize_not_blank (raw : List Char) : (sanitize raw).all pyWs = false := by
  unfold sanitize sanitizeCore
  by_cases hall : (stripCtrl (replaceReserved (removeDotDot
      (if stripChars raw = [] then defaultSuffix else stripChars raw)))).all pyWs
  · rw [if_pos hall]
    decide
  · rw [if_neg hall]
    simpa using hall

theorem sanitize_noDD {raw : List Char} (hraw : ∀ c ∈ raw, isCtrl c = false) :
    noDD (sanitize raw) = true := by
  unfold sanitize
  have hsctrl : ∀ c ∈ (if stripChars raw = [] then defaultSuffix else stripChars raw),
      isCtrl c = false := by
    by_cases h0 : stripChars raw = []
    · rw [if_pos h0]
      decide
    · rw [if_neg h0]
      intro c hc
      exact hraw c (mem_stripChars hc)
  have hctrl2 : ∀ c ∈ replaceReserved (removeDotDot
      (if stripChars raw = [] then defaultSuffix else stripChars raw)),
      isCtrl c = false := by
    intro c hc
    refine isCtrl_of_mem_replaceReserved ?_ hc
    intro x hx
    exact hsctrl x ((removeDotDot_sublist _).mem hx)
  unfold sanitizeCore
  by_cases hall : (stripCtrl (replaceReserved (removeDotDot
      (if stripChars raw = [] then defaultSuffix else stripChars raw)))).all pyWs
  · rw [if_pos hall]
    decide
  · rw [if_neg hall, stripCtrl_eq_self hctrl2]
    exact noDD_replaceReserved (noDD_removeDotDot _)

theorem sanitize_eq_replaceReserved_strip {raw : List Char}
    (h0 : stripChars raw ≠ [])
    (hsdd : noDD (stripChars raw) = true)
    (hsctrl : ∀ c ∈ stripChars raw, isCtrl c = false) :
    sanitize raw = replaceReserved (stripChars raw) := by
  have hctrl2 : ∀ c ∈ replaceReserved (stripChars raw), isCtrl c = false :=
    fun c hc => isCtrl_of_mem_replaceReserved hsctrl hc
  obtain ⟨a, s1, hcons⟩ : ∃ a s1, stripChars raw = a :: s1 := by
    cases hsc : stripChars raw with
    | nil => exact absurd hsc h0
    | cons a s1 => exact ⟨a, s1, rfl⟩
  have hwa : pyWs a = false := stripChars_head?_false (by rw [hcons]; rfl)
  have hblank : ¬ (replaceReserved (stripChars raw)).all pyWs = true := by
    rw [hcons]
    intro hcontra
    unfold replaceReserved at hcontra
    rw [List.map_cons, List.all_cons] at hcontra
    have h1 := (Bool.and_eq_true _ _).mp hcontra
    rw [pyWs_repl hwa] at h1
    exact Bool.noConfusion h1.1
  simp only [sanitize]
  rw [if_neg h0]
  unfold sanitizeCore
  rw [removeDotDot_eq_self hsdd, stripCtrl_eq_self hctrl2, if_neg hblank]

/-- Claim C3 as stated is false: sanitization is not idempotent.  On
`".. a .."` the `..`-removal of the first pass re-exposes surrounding
whitespace, which the second pass strips:
`sanitize(".. a ..") = " a "` but `sanitize(" a ") = "a"`. -/
theorem C3_counterexample :
    sanitize (sanitize ".. a ..".data) ≠ sanitize ".. a ..".data ∧
    sanitize ".. a ..".data = " a ".data ∧
    sanitize (sanitize ".. a ..".data) = "a".data := by
  refine ⟨?_, by decide, by decide⟩
  decide

/-- Claim C3, amended as its counterexamples force: suffix sanitization
is idempotent on every input that contains no ASCII control character
(0x00-0x1F) and no two adjacent dots.  (Control characters are removed
after the `..`-removal and can thus assemble a fresh `..` that only the
second pass deletes, and deleting a `..` can expose surrounding
whitespace that only the second pass strips; absent those two features,
`sanitize (sanitize x) = sanitize x`.) -/
theorem C3_amended_idempotent (raw : List Char)
    (hctrl : ∀ c ∈ raw, isCtrl c = false) (hdd : noDD raw = true) :
    sanitize (sanitize raw) = sanitize raw := by
  by_cases h0 : stripChars raw = []
  · have h1 : sanitize raw = defaultSuffix := by
      show sanitizeCore
        (if stripChars raw = [] then defaultSuffix else stripChars raw)
        = defaultSuffix
      rw [if_pos h0]
      decide
    rw [h1]
    decide
  · have hsdd : noDD (stripChars raw) = true := noDD_stripChars hdd
    have hsctrl : ∀ c ∈ stripChars raw, isCtrl c = false :=
      fun c hc => hctrl c (mem_stripChars hc)
    have hval := sanitize_eq_replaceReserved_strip h0 hsdd hsctrl
    obtain ⟨a, s1, hcons⟩ : ∃ a s1, stripChars raw = a :: s1 := by
      cases hsc : stripChars raw with
      | nil => exact absurd hsc h0
      | cons a s1 => exact ⟨a, s1, rfl⟩
    have hwa : pyWs a = false := stripChars_head?_false (by rw [hcons]; rfl)
    have hydd : noDD (replaceReserved (stripChars raw)) = true :=
      noDD_replaceReserved hsdd
    have hyres : ∀ c ∈ replaceReserved (stripChars raw), reservedB c = false :=
      fun c hc => reservedB_of_mem_replaceReserved hc
    have hyctrl : ∀ c ∈ replaceReserved (stripChars raw), isCtrl c = false :=
      fun c hc => isCtrl_of_mem_replaceReserved hsctrl hc
    have hyne : replaceReserved (stripChars raw) ≠ [] := by
      rw [hcons]
      unfold replaceReserved
      rw [List.map_cons]
      exact List.cons_ne_nil _ _
    have hy_strip : stripChars (replaceReserved (stripChars raw))
        = replaceReserved (stripChars raw) := by
      apply stripChars_eq_self
      · intro c hc
        rw [hcons] at hc
        unfold replaceReserved at hc
        rw [List.map_cons, List.head?_cons] at hc
        cases hc
        exact pyWs_repl hwa
      · intro c hc
        unfold replaceReserved at hc
        rw [List.getLast?_map] at hc
        cases hgl : (stripChars raw).getLast? with
        | none =>
          rw [hgl] at hc
          exact Option.noConfusion hc
        | some b =>
          rw [hgl] at hc
          have hcb : (if reservedB b then '_' else b) = c := by
            simpa using hc
          rw [← hcb]
          exact pyWs_repl (stripChars_getLast?_false hgl)
    have hy_strip2 : stripChars (sanitize raw) = sanitize raw := by
      rw [hval]
      exact hy_strip
    have hy_blank : ¬ (replaceReserved (stripChars raw)).all pyWs = true := by
      rw [hcons]
      intro hcontra
      unfold replaceReserved at hcontra
      rw [List.map_cons, List.all_cons] at hcontra
      have h1 := (Bool.and_eq_true _ _).mp hcontra
      rw [pyWs_repl hwa] at h1
      exact Bool.noConfusion h1.1
    conv_lhs => rw [hval]
    rw [hval]
    simp only [sanitize]
    rw [hy_strip, if_neg hyne]
    unfold sanitizeCore
    rw [removeDotDot_eq_self hydd, replaceReserved_eq_self hyres,
      stripCtrl_eq_self hyctrl, if_neg hy_blank]

/-! ### Claim theorems: frame formatter -/

/-- **C7.** Whenever the placeholder width is positive,
`_construct_video_filename` builds the numeric frame token by
zero-padding start and end independently to the placeholder width and
joining them as `"start-end"`, placed between the base and the middle
text; this shape does not depend on whether start equals end. -/
theorem C7_frame_token (b m ext : String) (s e w : Nat) (hw : 0 < w) :
    constructVideoFilename b m s e w ext
      = b ++ (padNum w s ++ "-" ++ padNum w e) ++ m ++ ext := by
  unfold constructVideoFilename
  rw [if_pos hw]

/-- Witness for C7 at the claim's concrete inputs: width 4 formats the
single frame (1,1) as `"0001-0001"` and (1,13) as `"0001-0013"`. -/
theorem C7_witness :
    constructVideoFilename "" "" 1 1 4 ""
      = "" ++ (padNum 4 1 ++ "-" ++ padNum 4 1) ++ "" ++ "" ∧
    constructVideoFilename "" "" 1 1 4 "" = "0001-0001" ∧
    constructVideoFilename "" "" 1 13 4 "" = "0001-0013" :=
  ⟨C7_frame_token "" "" "" 1 1 4 (by decide), by decide, by decide⟩

/-- **C10.** Zero-padding in the frame-token formatter is a minimum
width only: the padded field is `max w d` characters long (`d` the digit
count of `n`), it is exactly the zero-prefix followed by the full
decimal digits of `n` (so `n` is never truncated), when `d > w` it is
exactly the digits of `n`, and the token is the two padded fields joined
by a hyphen. -/
theorem C10_padding_never_truncates (w n s e : Nat) (hw : 0 < w) :
    (padNum w n).length = max w (Nat.toDigits 10 n).length ∧
    padNum w n
      = String.mk (List.replicate (w - (Nat.toDigits 10 n).length) '0'
          ++ Nat.toDigits 10 n) ∧
    (w < (Nat.toDigits 10 n).length → padNum w n = String.mk (Nat.toDigits 10 n)) ∧
    constructVideoFilename "" "" s e w "" = padNum w s ++ "-" ++ padNum w e := by
  refine ⟨?_, rfl, ?_, ?_⟩
  · show (List.replicate (w - (Nat.toDigits 10 n).length) '0'
      ++ Nat.toDigits 10 n).length = _
    rw [List.length_append, List.length_replicate]
    omega
  · intro hlt
    unfold padNum
    rw [Nat.sub_eq_zero_of_le (Nat.le_of_lt hlt)]
    rfl
  · unfold constructVideoFilename
    rw [if_pos hw]
    apply String.ext
    simp [String.data_append]

/-- Witness for C10 at the claim's concrete inputs: width 1 with frame
13 keeps both digits (`"13"`, no truncation), so frames 1-13 at width 1
give `"1-13"`. -/
theorem C10_witness :
    1 < (Nat.toDigits 10 13).length ∧
    padNum 1 13 = String.mk (Nat.toDigits 10 13) ∧
    padNum 1 13 = "13" ∧
    constructVideoFilename "" "" 1 13 1 "" = "1-13" :=
  ⟨by decide,
    (C10_padding_never_truncates 1 13 1 13 (by decide)).2.2.1 (by decide),
    by decide, by decide⟩

/-! ### Claim theorems: naming rule engine -/

/-- **C4 (Rule A).** With extension enforcement on, when the user
extension case-insensitively equals the container's correct extension
and the name part before it contains a placeholder run, the plan keeps
the name part literally: base = name part, width 0, middle empty,
extension = lowercased correct extension — the placeholders stay as
literal text and no frame substitution occurs. -/
theorem C4_ruleA_literal (bn : String) (ct : Container)
    (hne : (strSplitext bn).2 ≠ "")
    (heq : pyLower (strSplitext bn).2 = containerExt ct)
    (_hrun : lastHashRun (strSplitext bn).1.data ≠ none) :
    planEnforce bn ct = ⟨(strSplitext bn).1, 0, "", containerExt ct⟩ := by
  unfold planEnforce
  rw [if_pos ⟨hne, heq⟩]

/-- Witness for C4 at the claim's example: `"TEST###.MP4"` with
container `.mp4` renders as `"TEST###.mp4"`. -/
theorem C4_witness :
    planEnforce "TEST###.MP4" Container.MPEG4
      = ⟨(strSplitext "TEST###.MP4").1, 0, "", containerExt Container.MPEG4⟩ ∧
    renderPlan (planEnforce "TEST###.MP4" Container.MPEG4) 1 13 = "TEST###.mp4" :=
  ⟨C4_ruleA_literal "TEST###.MP4" Container.MPEG4
      (by decide) (by decide) (by decide),
    by decide⟩

/-- **C5 (Rule D).** With extension enforcement on, when the basename
contains no placeholder run anywhere and the user extension is absent or
does not case-insensitively match the container, the plan is the full
basename verbatim (wrong extension included), width 4, empty middle,
lowercased correct extension, so a 4-digit frame-range token is always
appended. -/
theorem C5_ruleD_fallback (bn : String) (ct : Container)
    (hwrong : pyLower (strSplitext bn).2 ≠ containerExt ct)
    (hnorun : lastHashRun bn.data = none) :
    planEnforce bn ct = ⟨bn, 4, "", containerExt ct⟩ ∧
    ∀ s e, renderPlan (planEnforce bn ct) s e
      = bn ++ (padNum 4 s ++ "-" ++ padNum 4 e) ++ containerExt ct := by
  have hA : ¬ ((strSplitext bn).2 ≠ ""
      ∧ pyLower (strSplitext bn).2 = containerExt ct) := by
    rintro ⟨-, h2⟩
    exact hwrong h2
  have hnp : lastHashRun (strSplitext bn).1.data = none := by
    rw [lastHashRun_eq_none_iff] at hnorun ⊢
    intro c hc
    exact hnorun c (splitextData_fst_mem hc)
  have hplan : planEnforce bn ct = ⟨bn, 4, "", containerExt ct⟩ := by
    unfold planEnforce
    rw [if_neg hA]
    by_cases hue : (strSplitext bn).2 = ""
    · rw [if_pos hue, hnorun]
    · rw [if_neg hue, hnp]
  refine ⟨hplan, fun s e => ?_⟩
  rw [hplan]
  show constructVideoFilename bn "" s e 4 (containerExt ct) = _
  unfold constructVideoFilename
  rw [if_pos (by decide : (0:Nat) < 4)]
  apply String.ext
  simp [String.data_append]

/-- Witness for C5 at the claim's example: `"TEST.TXT"` with container
`.mp4`, frames 1-5, renders as `"TEST.TXT0001-0005.mp4"`. -/
theorem C5_witness :
    planEnforce "TEST.TXT" Container.MPEG4 = ⟨"TEST.TXT", 4, "", ".mp4"⟩ ∧
    renderPlan (planEnforce "TEST.TXT" Container.MPEG4) 1 5
      = "TEST.TXT0001-0005.mp4" :=
  ⟨(C5_ruleD_fallback "TEST.TXT" Container.MPEG4 (by decide) (by decide)).1,
    by decide⟩

/-- **C1, counterexample.** The claim is false at its own example: with
a wrong user extension present, Scenario C scans only the name part
before the last extension dot (`user_name_part`,
`extension_logic.py:423`), not the entire basename; `"te##st.mov###"`
splits into name part `"te##st"` and extension `".mov###"`, the
rightmost run inside the name part is `"##"`, and frames 1-13 render as
`"te01-13st.mov###.mp4"`, not `"te##st.mov001-013.mp4"`. -/
theorem C1_counterexample :
    renderPlan (planEnforce "te##st.mov###" Container.MPEG4) 1 13
      = "te01-13st.mov###.mp4" ∧
    renderPlan (planEnforce "te##st.mov###" Container.MPEG4) 1 13
      ≠ "te##st.mov001-013.mp4" ∧
    planEnforce "te##st.mov###" Container.MPEG4
      = ⟨"te", 2, "st.mov###", ".mp4"⟩ :=
  ⟨by decide, by decide, by decide⟩

/-- **C1, amended (Rule C).** With extension enforcement on and the user
extension absent or wrong: when the extension is wrong, the rightmost
placeholder run of the *name part only* is substituted, the middle text
is the remainder of the name part followed by the wrong user extension,
and the forced extension is the lowercased correct one; when the
extension is absent, the entire basename (which then coincides with the
name part) is scanned and the middle is the remainder. -/
theorem C1_amended_ruleC (bn : String) (ct : Container) (pre rem : List Char)
    (n : Nat) :
    ((strSplitext bn).2 ≠ "" →
      pyLower (strSplitext bn).2 ≠ containerExt ct →
      lastHashRun (strSplitext bn).1.data = some (pre, n, rem) →
      planEnforce bn ct
        = ⟨String.mk pre, n, String.mk rem ++ (strSplitext bn).2,
            containerExt ct⟩) ∧
    ((strSplitext bn).2 = "" →
      lastHashRun bn.data = some (pre, n, rem) →
      planEnforce bn ct = ⟨String.mk pre, n, String.mk rem, containerExt ct⟩) := by
  constructor
  · intro hne hwrong hrun
    have hA : ¬ ((strSplitext bn).2 ≠ ""
        ∧ pyLower (strSplitext bn).2 = containerExt ct) := by
      rintro ⟨-, h2⟩
      exact hwrong h2
    unfold planEnforce
    rw [if_neg hA, if_neg hne, hrun]
  · intro hue hrun
    have hA : ¬ ((strSplitext bn).2 ≠ ""
        ∧ pyLower (strSplitext bn).2 = containerExt ct) := by
      rintro ⟨h1, -⟩
      exact h1 hue
    unfold planEnforce
    rw [if_neg hA, if_pos hue, hrun]

/-- Witness for the amended C1 at `"te##st.mov###"` with container
`.mp4`: plan base `"te"`, width 2, middle `"st.mov###"`, extension
`".mp4"`; frames 1-13 render `"te01-13st.mov###.mp4"`. -/
theorem C1_witness :
    planEnforce "te##st.mov###" Container.MPEG4
      = ⟨String.mk "te".data, 2,
          String.mk "st".data ++ (strSplitext "te##st.mov###").2,
          containerExt Container.MPEG4⟩ ∧
    renderPlan (planEnforce "te##st.mov###" Container.MPEG4) 1 13
      = "te01-13st.mov###.mp4" :=
  ⟨(C1_amended_ruleC "te##st.mov###" Container.MPEG4 "te".data "st".data 2).1
      (by decide) (by decide) (by decide),
    by decide⟩

/-- **C6, counterexample.** The claim's "split on the last dot" is not
what the code does: `os.path.splitext` keeps leading dots in the stem,
so on setting `".###"` the claim predicts stem `""` / extension `".###"`
with no run, width 0 and the filename emitted exactly as given, but the
code scans the stem `".###"`, finds the `###` run and substitutes:
frames 1-13 give `".001-013"`. -/
theorem C6_counterexample :
    planFreeClaimC6 ".###" = ⟨"", 0, "", ".###"⟩ ∧
    renderPlan (planFreeClaimC6 ".###") 1 13 = ".###" ∧
    planFree ".###" = ⟨".", 3, "", ""⟩ ∧
    renderPlan (planFree ".###") 1 13 = ".001-013" ∧
    planFree ".###" ≠ planFreeClaimC6 ".###" :=
  ⟨by decide, by decide, by decide, by decide, by decide⟩

/-- **C6, amended.** With extension enforcement off, the basename is
split by `os.path.splitext` semantics (the extension starts at the last
dot only when a non-dot character precedes it; leading dots belong to
the stem) into (stem, literal extension), the literal extension
preserved exactly; if the stem has a placeholder run the rightmost run
becomes the frame token with width equal to the run length, middle the
remainder, extension appended unchanged; if it has no run the width is 0
and the filename is emitted exactly as given with no numeric token. -/
theorem C6_amended_free_rules (bn : String) (pre rem : List Char) (n s e : Nat) :
    (lastHashRun (strSplitext bn).1.data = some (pre, n, rem) →
      planFree bn = ⟨String.mk pre, n, String.mk rem, (strSplitext bn).2⟩) ∧
    (lastHashRun (strSplitext bn).1.data = none →
      planFree bn = ⟨(strSplitext bn).1, 0, "", (strSplitext bn).2⟩ ∧
      renderPlan (planFree bn) s e = bn) := by
  have hstem : (if (strSplitext bn).2 ≠ "" then (strSplitext bn).1 else bn)
      = (strSplitext bn).1 := by
    by_cases h : (strSplitext bn).2 = ""
    · rw [if_neg (by simpa using h)]
      exact (strSplitext_fst_of_snd_empty h).symm
    · rw [if_pos h]
  constructor
  · intro hrun
    unfold planFree
    rw [hstem, hrun]
  · intro hnorun
    have hplan : planFree bn = ⟨(strSplitext bn).1, 0, "", (strSplitext bn).2⟩ := by
      unfold planFree
      rw [hstem, hnorun]
    refine ⟨hplan, ?_⟩
    rw [hplan]
    show constructVideoFilename (strSplitext bn).1 "" s e 0 (strSplitext bn).2 = bn
    unfold constructVideoFilename
    rw [if_neg (by decide : ¬ (0:Nat) < 0)]
    apply String.ext
    simp only [String.data_append]
    simpa using splitextData_append bn.data

/-- Witness for the amended C6 at the claim's example `"#.MP4"`: the
stem `"#"` has a run of width 1, the literal extension `".MP4"` is kept
with its case, and frames 1-13 render `"1-13.MP4"`. -/
theorem C6_witness :
    planFree "#.MP4" = ⟨String.mk [], 1, String.mk [], (strSplitext "#.MP4").2⟩ ∧
    renderPlan (planFree "#.MP4") 1 13 = "1-13.MP4" :=
  ⟨(C6_amended_free_rules "#.MP4" [] [] 1 1 13).1 (by decide),
    by decide⟩

/-! ### Claim theorems: file locator -/

/-- **C2, counterexample.** The claim is false about the fallback order
and the fallback condition: with both fallback candidates present the
code returns the blend-file-name (project-default-name) candidate, while
the claim's locator would return the numeric-token-only candidate first;
and with the extension checkbox off, the code tries no fallback at all
even for a directory target, returning none although a candidate
exists. -/
theorem C2_counterexample :
    locateRenderedFile ⟨["/out/proj0001-0005.mp4", "/out/0001-0005.mp4"], ["/out"]⟩
        "/out" "x.mp4" true true "proj" 1 5 ".mp4"
      = some "/out/proj0001-0005.mp4" ∧
    locateClaimC2 ⟨["/out/proj0001-0005.mp4", "/out/0001-0005.mp4"], ["/out"]⟩
        "/out" "x.mp4" true "proj" 1 5 ".mp4"
      = some "/out/0001-0005.mp4" ∧
    ("/out/proj0001-0005.mp4" : String) ≠ "/out/0001-0005.mp4" ∧
    locateRenderedFile ⟨["/out/proj0001-0005.mp4", "/out/0001-0005.mp4"], ["/out"]⟩
        "/out" "x.mp4" true false "proj" 1 5 ".mp4" = none :=
  ⟨by decide, by decide, by decide, by decide⟩

/-- **C2, amended.** The locator first checks the predicted path exactly
(it must exist and not be a directory); on a miss, fallback candidates
are tried only when the original target setting was a directory AND the
extension checkbox is on, in this order: first the
project-default-(blend)-name-plus-token filename in that directory (only
when a project name exists), then the numeric-token-only filename; the
first existing candidate is returned, and if every candidate misses the
locator returns none without raising and no companion file is
produced. -/
theorem C2_amended_locator (fs : FS) (outDir pname blendStem finalExt suffix : String)
    (s e : Nat) :
    (fs.isFilePath (pathJoin outDir pname) = true →
      ∀ d u, locateRenderedFile fs outDir pname d u blendStem s e finalExt
        = some (pathJoin outDir pname)) ∧
    (fs.isFilePath (pathJoin outDir pname) = false →
      (∀ u, locateRenderedFile fs outDir pname false u blendStem s e finalExt
        = none) ∧
      locateRenderedFile fs outDir pname true false blendStem s e finalExt
        = none ∧
      (blendStem ≠ "" →
        fs.isFilePath (pathJoin outDir
          (constructVideoFilename blendStem "" s e 4 finalExt)) = true →
        locateRenderedFile fs outDir pname true true blendStem s e finalExt
          = some (pathJoin outDir
              (constructVideoFilename blendStem "" s e 4 finalExt))) ∧
      ((blendStem = "" ∨ fs.isFilePath (pathJoin outDir
            (constructVideoFilename blendStem "" s e 4 finalExt)) = false) →
        fs.isFilePath (pathJoin outDir
          (constructVideoFilename "" "" s e 4 finalExt)) = true →
        locateRenderedFile fs outDir pname true true blendStem s e finalExt
          = some (pathJoin outDir
              (constructVideoFilename "" "" s e 4 finalExt))) ∧
      ((blendStem = "" ∨ fs.isFilePath (pathJoin outDir
            (constructVideoFilename blendStem "" s e 4 finalExt)) = false) →
        fs.isFilePath (pathJoin outDir
          (constructVideoFilename "" "" s e 4 finalExt)) = false →
        locateRenderedFile fs outDir pname true true blendStem s e finalExt = none ∧
        companionOutcome
          (locateRenderedFile fs outDir pname true true blendStem s e finalExt)
          outDir suffix = none)) := by
  constructor
  · intro hhit d u
    unfold locateRenderedFile
    rw [if_pos hhit]
  · intro hmiss
    have hm : ¬ fs.isFilePath (pathJoin outDir pname) = true := by
      simp [hmiss]
    have hblendneg : ∀ hb : blendStem = "" ∨ fs.isFilePath (pathJoin outDir
        (constructVideoFilename blendStem "" s e 4 finalExt)) = false,
        ¬ (blendStem ≠ "" ∧ fs.isFilePath (pathJoin outDir
          (constructVideoFilename blendStem "" s e 4 finalExt)) = true) := by
      intro hb
      rcases hb with h | h
      · rintro ⟨h1, -⟩
        exact h1 h
      · rintro ⟨-, h2⟩
        rw [h] at h2
        exact Bool.noConfusion h2
    refine ⟨?_, ?_, ?_, ?_, ?_⟩
    · intro u
      unfold locateRenderedFile
      rw [if_neg hm]
      rfl
    · unfold locateRenderedFile
      rw [if_neg hm]
      rfl
    · intro hbs hbf
      unfold locateRenderedFile
      rw [if_neg hm]
      show (if blendStem ≠ "" ∧ fs.isFilePath _ = true then _ else _) = _
      rw [if_pos ⟨hbs, hbf⟩]
    · intro hb hff
      unfold locateRenderedFile
      rw [if_neg hm]
      show (if blendStem ≠ "" ∧ fs.isFilePath _ = true then _ else _) = _
      rw [if_neg (hblendneg hb), if_pos hff]
    · intro hb hnf
      have hloc : locateRenderedFile fs outDir pname true true blendStem s e finalExt
          = none := by
        unfold locateRenderedFile
        rw [if_neg hm]
        show (if blendStem ≠ "" ∧ fs.isFilePath _ = true then _ else _) = _
        rw [if_neg (hblendneg hb), if_neg (by simp [hnf])]
      refine ⟨hloc, ?_⟩
      rw [hloc]
      rfl

/-- Witness for the amended C2: with only the blend-name candidate on
disk and the predicted path missing, the locator returns the blend-name
candidate; with the setting not a directory it returns none. -/
theorem C2_witness :
    locateRenderedFile ⟨["/out/proj0001-0005.mp4"], ["/out"]⟩ "/out" "x.mp4"
      true true "proj" 1 5 ".mp4" = some "/out/proj0001-0005.mp4" ∧
    locateRenderedFile ⟨["/out/proj0001-0005.mp4"], ["/out"]⟩ "/out" "x.mp4"
      false true "proj" 1 5 ".mp4" = none := by
  have h := C2_amended_locator ⟨["/out/proj0001-0005.mp4"], ["/out"]⟩
    "/out" "x.mp4" "proj" ".mp4" "-faststart" 1 5
  constructor
  · have h3 := (h.2 (by decide)).2.2.1 (by decide) (by decide)
    exact h3.trans (by decide)
  · exact (h.2 (by decide)).1 true

/-! ### Claim theorems: suffix sanitizer -/

/-- **C8, counterexample.** The claim's "no occurrence of `..` in the
output" is false: control characters are removed only after the
`..`-removal, so on `".\x00."` deleting the NUL assembles `".."` in the
sanitized output. -/
theorem C8_counterexample :
    sanitize ".\x00.".data = ('.' :: '.' :: []) ∧
    noDD ('.' :: '.' :: []) = false :=
  ⟨by decide, by decide⟩

/-- **C8, amended.** The sanitizer is total: for every input it returns
a non-empty, non-whitespace-only string containing no
filesystem-reserved character and no ASCII control character, falling
back to the fixed default `"-faststart"` when sanitization would
otherwise yield an empty or whitespace-only result; and whenever the
input contains no control character, the output also contains no
occurrence of `..`. -/
theorem C8_sanitizer_invariants (raw : List Char) :
    sanitize raw ≠ [] ∧
    (sanitize raw).all pyWs = false ∧
    (∀ c ∈ sanitize raw, reservedB c = false ∧ isCtrl c = false) ∧
    ((∀ c ∈ raw, isCtrl c = false) → noDD (sanitize raw) = true) := by
  refine ⟨sanitize_ne_nil raw, sanitize_not_blank raw, ?_,
    fun h => sanitize_noDD h⟩
  intro c hc
  exact sanitizeCore_mem hc

/-- Witness for the amended C8: on `"a<b:c"` the reserved characters are
replaced and the control-free input yields a `..`-free output. -/
theorem C8_witness :
    noDD (sanitize "a<b:c".data) = true ∧
    sanitize "a<b:c".data = "a_b_c".data :=
  ⟨(C8_sanitizer_invariants "a<b:c".data).2.2.2 (by decide), by decide⟩

/-- Witness for the amended C3: a control-free, `..`-free suffix such as
`" my.Suffix "` reaches a fixed point after one pass. -/
theorem C3_witness :
    sanitize (sanitize " my.Suffix ".data) = sanitize " my.Suffix ".data ∧
    sanitize " my.Suffix ".data = "my.Suffix".data :=
  ⟨C3_amended_idempotent " my.Suffix ".data (by decide) (by decide), by decide⟩

/-! ### Claim theorems: external-collaborator failure handling -/

/-- **C9, counterexample.** "Any partial output artifact is removed" is
false: the handler removes the output only when it exists with size zero
(`os.path.getsize(...) == 0`); a failing call that leaves a non-empty
partial output (here 5 bytes) leaves that artifact on disk. -/
theorem C9_counterexample :
    runQtSuccess ⟨some 100, none⟩ (QtOutcome.raised QtError.malformedFile)
      (some 5) = false ∧
    (postProcessStep ⟨some 100, none⟩ (QtOutcome.raised QtError.malformedFile)
      (some 5)).1 = ⟨some 100, some 5⟩ ∧
    (⟨some 100, some 5⟩ : MediaState).outputSize ≠ none :=
  ⟨by decide, by decide, by decide⟩

/-- **C9, amended.** When the external relocation collaborator raises
any of its defined exceptions or produces a zero-byte or absent output
file, the step reports failure without propagating an exception, removes
the output artifact exactly when it is a zero-byte file (a non-empty
partial artifact is left in place, only logged), and the located source
file is untouched in every failure path. -/
theorem C9_amended_failure_handling (st : MediaState) (outcome : QtOutcome)
    (outAfter : Option Nat) (hfail : runQtSuccess st outcome outAfter = false) :
    (postProcessStep st outcome outAfter).2 = false ∧
    (postProcessStep st outcome outAfter).1.sourceSize = st.sourceSize ∧
    (postProcessStep st outcome outAfter).1.outputSize
      = (if outAfter = some 0 then none else outAfter) := by
  unfold postProcessStep externalCallEffect
  rw [if_neg (by simp [hfail])]
  cases outAfter with
  | none => exact ⟨rfl, rfl, rfl⟩
  | some k =>
    cases k with
    | zero =>
      refine ⟨rfl, rfl, ?_⟩
      rw [if_pos rfl]
    | succ k2 =>
      refine ⟨rfl, rfl, ?_⟩
      rw [if_neg (by simp)]
      rfl

/-- Witness for the amended C9: a `SetupError` with a zero-byte output
leaves the 100-byte source untouched and removes the empty artifact. -/
theorem C9_witness :
    runQtSuccess ⟨some 100, none⟩ (QtOutcome.raised QtError.setupError)
      (some 0) = false ∧
    (postProcessStep ⟨some 100, none⟩ (QtOutcome.raised QtError.setupError)
      (some 0)).2 = false ∧
    (postProcessStep ⟨some 100, none⟩ (QtOutcome.raised QtError.setupError)
      (some 0)).1.sourceSize = some 100 ∧
    (postProcessStep ⟨some 100, none⟩ (QtOutcome.raised QtError.setupError)
      (some 0)).1.outputSize = none := by
  have h := C9_amended_failure_handling ⟨some 100, none⟩
    (QtOutcome.raised QtError.setupError) (some 0) (by decide)
  exact ⟨by decide, h.1, h.2.1.trans (by decide), h.2.2.trans (by decide)⟩

end FastStart
